import Mathlib

/-!
Verification of the network-modeller repository (src/main.rs and src/network.rs)
against its natural-language specification.

The repository contains two parallel implementations: `src/main.rs` (the binary that
is actually compiled; `network.rs` is never declared as a module) and `src/network.rs`.
Shared data structures (`Link`, `Network`, `TrafficDemand`, `State`) and `dijkstra`
(identical in both files up to an equivalent distance lookup: `main.rs` indexes the
distances map, `network.rs` uses `unwrap_or(&usize::MAX)`; both are only ever reached
on keys that are present) are embedded once.  Functions whose two versions differ
(`load_network`, `load_traffic`, `model_traffic`, `worst_case_failure`) are embedded
separately in the namespaces `MainRs` and `NetworkRs`.

Machine integers (`usize`) are embedded as `Nat`; the sentinel `usize::MAX` used by
`dijkstra` as infinity is kept explicit as `USIZE_MAX`.  Rust's `HashMap` is embedded
as an association list with overwriting insert (`ainsert`/`alookup`); its iteration
order (relevant only to the emission order of the utilization report, and randomized
per process in Rust via `RandomState`) is modelled as an explicit permutation
parameter.  `BinaryHeap` with the reversed `Ord` on `cost` is embedded as a list with
`popMin` extracting a minimum-cost entry (Rust's tie order among equal costs is an
implementation detail of the binary heap; no property below depends on it).  The
unbounded `while` loops of `dijkstra` are embedded with an explicit fuel parameter;
`none` marks fuel exhaustion (or an out-of-bounds index during path reconstruction,
which would panic in Rust) and is proved unreachable.  CSV files are embedded at the
loader boundary as `List (List String)` (the parsed records); fallible loading
returns `Option`, with `none` covering both `Err` returns and panics from
out-of-range record indexing.
-/

namespace NetworkModeller

/-- Sentinel used by the source as infinity: `usize::MAX` on a 64-bit target. -/
def USIZE_MAX : Nat := 2 ^ 64 - 1

/-- Link struct (both files, fields in source order). -/
structure Link where
  link_id : Nat
  start : String
  «end» : String
  capacity : Nat
  weight : Nat
deriving DecidableEq, Repr

/-- Network struct: an ordered sequence of links. -/
structure Network where
  links : List Link
deriving DecidableEq, Repr

/-- TrafficDemand struct. -/
structure TrafficDemand where
  source : String
  destination : String
  demand : Nat
deriving DecidableEq, Repr

/-- State pushed on the priority queue by `dijkstra`. -/
structure State where
  node : String
  cost : Nat
deriving DecidableEq, Repr

/-- Lookup in an association list (the embedding of `HashMap::get`). -/
def alookup {κ : Type} [DecidableEq κ] : List (κ × Nat) → κ → Option Nat
  | [], _ => none
  | (k, v) :: t, x => if k = x then some v else alookup t x

/-- Overwriting insert in an association list (the embedding of `HashMap::insert`). -/
def ainsert {κ : Type} [DecidableEq κ] : List (κ × Nat) → κ → Nat → List (κ × Nat)
  | [], k, v => [(k, v)]
  | (k', v') :: t, k, v => if k' = k then (k, v) :: t else (k', v') :: ainsert t k v

/-- Embedding of `*map.entry(k).or_insert(0) += v`. -/
def addUtil {κ : Type} [DecidableEq κ] : List (κ × Nat) → κ → Nat → List (κ × Nat)
  | [], k, v => [(k, v)]
  | (k', v') :: t, k, v => if k' = k then (k', v' + v) :: t else (k', v') :: addUtil t k v

/-- Sum of the values of an association list. -/
def sumVals {κ : Type} (m : List (κ × Nat)) : Nat := (m.map (·.2)).sum

/-- Embedding of `iter().enumerate()`, starting at index `i`. -/
def enumerate {α : Type} (i : Nat) : List α → List (Nat × α)
  | [] => []
  | a :: t => (i, a) :: enumerate (i + 1) t

/-- Distance lookup with the `usize::MAX` default (`network.rs` line 143/153;
`main.rs` indexes instead, which panics on absent keys — the two agree on every
state the algorithm reaches, where the key is always present). -/
def distOf (dist : List (String × Nat)) (v : String) : Nat :=
  (alookup dist v).getD USIZE_MAX

/-- Extraction from the binary heap: `State`'s reversed `Ord` on `cost` makes
`BinaryHeap::pop` return a minimum-cost entry.  The embedding removes the first
entry of minimal cost. -/
def popMin : List State → Option (State × List State)
  | [] => none
  | x :: t =>
    match popMin t with
    | none => some (x, [])
    | some (y, r) => if x.cost ≤ y.cost then some (x, t) else some (y, x :: r)

/-- Inner relaxation loop of `dijkstra`
(`for (link_id, link) in network.links.iter().enumerate()`), threading
(heap, visited, distances). -/
def relaxFrom (node : String) (cost : Nat) :
    List (Nat × Link) → List State × List (String × Nat) × List (String × Nat) →
      List State × List (String × Nat) × List (String × Nat)
  | [], st => st
  | (i, l) :: rest, (heap, visited, dist) =>
    if l.start = node then
      let nc := cost + l.weight
      if nc < distOf dist l.«end» then
        relaxFrom node cost rest
          (heap ++ [⟨l.«end», nc⟩], ainsert visited l.«end» i, ainsert dist l.«end» nc)
      else relaxFrom node cost rest (heap, visited, dist)
    else relaxFrom node cost rest (heap, visited, dist)

/-- Path reconstruction (`while let Some(link_id) = visited.get(&current_node)`).
The Rust loop is unbounded; the fuel `visited.length + 1` passed by `dijkstraLoop`
is proved sufficient (the predecessor chains are acyclic), and `none` marks either
fuel exhaustion or the panic `network.links[*link_id]` would raise out of bounds —
both proved unreachable. -/
def reconstruct (links : List Link) (visited : List (String × Nat)) :
    Nat → String → Option (List Nat)
  | 0, cur =>
    match alookup visited cur with
    | none => some []
    | some _ => none
  | fuel + 1, cur =>
    match alookup visited cur with
    | none => some []
    | some lid =>
      match links[lid]? with
      | none => none
      | some l => (reconstruct links visited fuel l.start).map (fun p => p ++ [lid])

/-- Main loop of `dijkstra` (`while let Some(State { node, cost }) = heap.pop()`),
with fuel; `some none` is the `None` ("no path found") return, `some (some p)` the
`Some(path)` return, and `none` (fuel exhaustion / reconstruction failure) is proved
unreachable. -/
def dijkstraLoop (links : List Link) (dest : String) :
    Nat → List State → List (String × Nat) → List (String × Nat) →
      Option (Option (List Nat))
  | 0, _, _, _ => none
  | fuel + 1, heap, visited, dist =>
    match popMin heap with
    | none => some none
    | some (⟨node, cost⟩, heap') =>
      if node = dest then
        match reconstruct links visited (visited.length + 1) dest with
        | none => none
        | some p => some (some p)
      else if distOf dist node < cost then
        dijkstraLoop links dest fuel heap' visited dist
      else
        match relaxFrom node cost (enumerate 0 links) (heap', visited, dist) with
        | (h, v, d) => dijkstraLoop links dest fuel h v d

/-- Distance initialization of `dijkstra`: every link endpoint at `usize::MAX`. -/
def initDist (links : List Link) : List (String × Nat) :=
  links.foldl (fun m l => ainsert (ainsert m l.start USIZE_MAX) l.«end» USIZE_MAX) []

/-- Dijkstra's algorithm (`main.rs` lines 95–144, `network.rs` lines 114–163).
The fuel `1 + |heap| + Σ distances` strictly dominates the loop measure
(heap size plus the sum of all recorded distances decreases on every iteration),
which is proved below; the result is never `none`. -/
def dijkstra (network : Network) (source destination : String) :
    Option (Option (List Nat)) :=
  let dist0 := ainsert (initDist network.links) source 0
  let heap0 : List State := [⟨source, 0⟩]
  dijkstraLoop network.links destination (1 + heap0.length + sumVals dist0)
    heap0 [] dist0

/-- Chain predicate for paths: `isPath L a b p` holds when `p` is a list of link
indices into `L` that chains `start → end` from node `a` to node `b`
(the empty path requires `a = b`). -/
def isPath (L : List Link) (a b : String) : List Nat → Bool
  | [] => a == b
  | i :: t =>
    match L[i]? with
    | some l => l.start == a && isPath L l.«end» b t
    | none => false

/-- Total weight of a path: the sum of `link[id].weight` over its link ids. -/
def pathWeight (L : List Link) (p : List Nat) : Nat :=
  (p.map (fun i => ((L[i]?).map Link.weight).getD 0)).sum

/-- Node occurs nowhere in the network as a link endpoint. -/
def absentFrom (n : Network) (v : String) : Prop :=
  ∀ l ∈ n.links, l.start ≠ v ∧ l.«end» ≠ v

instance (n : Network) (v : String) : Decidable (absentFrom n v) := by
  unfold absentFrom; infer_instance

/-- Membership test shared by both `worst_case_failure` versions (`main.rs` uses
a two-element `HashSet` of the link's endpoints, `network.rs` a two-element
`Vec`): the demand's source or destination is an endpoint of the link. -/
def wcfMatch (l : Link) (dem : TrafficDemand) : Prop :=
  dem.source = l.start ∨ dem.source = l.«end» ∨
    dem.destination = l.start ∨ dem.destination = l.«end»

instance (l : Link) (dem : TrafficDemand) : Decidable (wcfMatch l dem) := by
  unfold wcfMatch; infer_instance

/-- Shared embedding of `str::parse::<usize>()`: digits only, bounded by
`usize::MAX` (the optional leading `+` sign Rust accepts is not modelled; no
input below uses it).  Defined over `String.data` so that it evaluates inside
the kernel. -/
def parseUsize (s : String) : Option Nat :=
  if s.data ≠ [] ∧ s.data.all (fun c => decide ('0' ≤ c) && decide (c ≤ '9')) then
    let n := s.data.foldl (fun acc c => acc * 10 + (c.toNat - 48)) 0
    if n ≤ USIZE_MAX then some n else none
  else none

/-- Embedding of `str::trim()` (ASCII whitespace; Rust trims Unicode whitespace,
which no input below contains).  Defined over `String.data` so that it evaluates
inside the kernel. -/
def trimStr (s : String) : String :=
  ⟨((s.data.dropWhile (fun c => c == ' ' || c == '\t' || c == '\n' || c == '\r')).reverse.dropWhile
      (fun c => c == ' ' || c == '\t' || c == '\n' || c == '\r')).reverse⟩

namespace MainRs

/-- Row loop of `load_network` in `main.rs` (lines 59–69): `link_id` from
`enumerate()`, fields from record columns 1–4 (`none` models both the panic from
indexing a short record and a failing `parse`). -/
def load_network_aux : Nat → List (List String) → Option (List Link)
  | _, [] => some []
  | link_id, row :: rest =>
    match row.get? 1, row.get? 2, row.get? 3, row.get? 4 with
    | some st, some en, some cap, some w =>
      match parseUsize cap, parseUsize w with
      | some c, some wt =>
        (load_network_aux (link_id + 1) rest).map
          (fun ls => { link_id := link_id, start := st, «end» := en,
                       capacity := c, weight := wt } :: ls)
      | _, _ => none
    | _, _, _, _ => none

/-- `load_network` of `main.rs` (reader built with `has_headers(false)`: every row
is data). -/
def load_network (rows : List (List String)) : Option Network :=
  (load_network_aux 0 rows).map Network.mk

/-- `load_traffic` of `main.rs` (lines 75–92): `has_headers(false)`, columns 0–2,
no trimming. -/
def load_traffic : List (List String) → Option (List TrafficDemand)
  | [] => some []
  | row :: rest =>
    match row.get? 0, row.get? 1, row.get? 2 with
    | some s, some d, some dm =>
      match parseUsize dm with
      | some v =>
        (load_traffic rest).map
          (fun ds => { source := s, destination := d, demand := v } :: ds)
      | none => none
    | _, _, _ => none

/-- One iteration of the demand loop of `model_traffic` in `main.rs`
(lines 150–159): on a returned path, add the demand's volume to each traversed
link's accumulator; on `None`, only a warning is printed. -/
def routeDemand (n : Network) (m : List (Nat × Nat)) (dem : TrafficDemand) :
    List (Nat × Nat) :=
  match dijkstra n dem.source dem.destination with
  | some (some path) => path.foldl (fun acc lid => addUtil acc lid dem.demand) m
  | _ => m

/-- The `link_utilization` map accumulated by `model_traffic` in `main.rs`
over all demands in input order. -/
def model_traffic_util (n : Network) (ds : List TrafficDemand) : List (Nat × Nat) :=
  ds.foldl (routeDemand n) []

/-- Rows written to `utilization_report.csv` by `model_traffic` in `main.rs`
(lines 161–166): a header, then one row per map entry.  The data rows are written
by iterating the `HashMap`, whose order is a per-process-random permutation of the
entries; that order is the explicit `order` parameter here. -/
def utilizationReport (order : List (Nat × Nat)) : List (List String) :=
  ["Link ID", "Utilization"] :: order.map (fun e => [toString e.1, toString e.2])

/-- `worst_case_failure` of `main.rs` (lines 173–190): for every link (with its
index) and every demand whose source or destination is one of the link's
endpoints, one record `[link_id, D.source, D.destination]`. -/
def worst_case_failure (n : Network) (ds : List TrafficDemand) : List (List String) :=
  ((enumerate 0 n.links).map (fun il =>
    ds.filterMap (fun dem =>
      if wcfMatch il.2 dem then
        some [toString il.1, dem.source, dem.destination]
      else none))).flatten

end MainRs

namespace NetworkRs

/-- Row loop of `load_network` in `network.rs` (lines 59–69): fields from record
columns 0–3, and `link_id: 1` for every link. -/
def load_network_aux : List (List String) → Option (List Link)
  | [] => some []
  | row :: rest =>
    match row.get? 0, row.get? 1, row.get? 2, row.get? 3 with
    | some st, some en, some cap, some w =>
      match parseUsize cap, parseUsize w with
      | some c, some wt =>
        (load_network_aux rest).map
          (fun ls => { link_id := 1, start := st, «end» := en,
                       capacity := c, weight := wt } :: ls)
      | _, _ => none
    | _, _, _, _ => none

/-- `load_network` of `network.rs` (`has_headers(false)`: every row is data). -/
def load_network (rows : List (List String)) : Option Network :=
  (load_network_aux rows).map Network.mk

/-- Row loop shared by `load_traffic` in `network.rs` (lines 80–87): columns 0–2
with trimming, `record.get(i).ok_or(...)` turned into `none` on short rows. -/
def load_traffic_rows : List (List String) → Option (List TrafficDemand)
  | [] => some []
  | row :: rest =>
    match row.get? 0, row.get? 1, row.get? 2 with
    | some s, some d, some dm =>
      match parseUsize (trimStr dm) with
      | some v =>
        (load_traffic_rows rest).map
          (fun ds => { source := trimStr s, destination := trimStr d, demand := v } :: ds)
      | none => none
    | _, _, _ => none

/-- `load_traffic` of `network.rs` (lines 75–90): the reader is built with the
default `has_headers(true)`, so the first record of the file is consumed as a
header and never parsed as a demand. -/
def load_traffic (rows : List (List String)) : Option (List TrafficDemand) :=
  load_traffic_rows (rows.drop 1)

/-- The `link_utilization` map accumulated by `model_traffic` in `network.rs`
(lines 92–102): for each demand, volume is added only on links whose `start` is
the demand's source and whose `end` is its destination; `dijkstra` is not called. -/
def model_traffic_util (n : Network) (ds : List TrafficDemand) :
    List ((String × String) × Nat) :=
  ds.foldl (fun m dem =>
    n.links.foldl (fun m l =>
      if l.start = dem.source ∧ l.«end» = dem.destination then
        addUtil m (l.start, l.«end») dem.demand
      else m) m) []

/-- `worst_case_failure` of `network.rs` (lines 166–182): one record
`[L.start, L.end, D.source, D.destination]` per link and matching demand. -/
def worst_case_failure (n : Network) (ds : List TrafficDemand) : List (List String) :=
  (n.links.map (fun l =>
    ds.filterMap (fun dem =>
      if wcfMatch l dem then
        some [l.start, l.«end», dem.source, dem.destination]
      else none))).flatten

end NetworkRs

/-- Records demanded by the specification's worst-case-failure contract (§4.5):
for every link `L` in input order, one record per demand `D` in input order with
`D.source ∈ {L.start, L.end}` or `D.destination ∈ {L.start, L.end}`, carrying
`L.start, L.end, D.source, D.destination`.  This is the spec-side definition used
to compare the two implementations against the contract. -/
def wcfContractRecords (n : Network) (ds : List TrafficDemand) : List (List String) :=
  (n.links.map (fun l =>
    ((ds.filter (fun dem => decide (wcfMatch l dem))).map
      (fun dem => [l.start, l.«end», dem.source, dem.destination])))).flatten

/-! Concrete inputs used by witnesses and counterexamples.  `NET_S2` is the
specification's scenario S2 (two disjoint paths, prefer cheaper) and `NET_S1`
its scenario S1 (linear chain). -/

def NET_S2 : Network :=
  ⟨[{ link_id := 0, start := "A", «end» := "B", capacity := 10, weight := 1 },
    { link_id := 1, start := "A", «end» := "C", capacity := 10, weight := 5 },
    { link_id := 2, start := "B", «end» := "D", capacity := 10, weight := 1 },
    { link_id := 3, start := "C", «end» := "D", capacity := 10, weight := 1 }]⟩

def NET_S1 : Network :=
  ⟨[{ link_id := 0, start := "A", «end» := "B", capacity := 10, weight := 1 },
    { link_id := 1, start := "B", «end» := "C", capacity := 10, weight := 1 }]⟩

def NET_AB : Network :=
  ⟨[{ link_id := 0, start := "A", «end» := "B", capacity := 10, weight := 1 }]⟩

def dltLex (dist : List (String × Nat)) (rank : String → Nat) (a b : String) : Prop :=
  distOf dist a < distOf dist b ∨
    (distOf dist a = distOf dist b ∧ rank a < rank b)

instance (dist : List (String × Nat)) (rank : String → Nat) (a b : String) :
    Decidable (dltLex dist rank a b) := by
  unfold dltLex; infer_instance

/-- Number of entries of `visited` whose key is strictly below `cur` in the
`dltLex` order; the decreasing measure of the reconstruction walk. -/
def belowCount (visited dist : List (String × Nat)) (rank : String → Nat)
    (cur : String) : Nat :=
  (visited.filter (fun e => decide (dltLex dist rank e.1 cur))).length

/-- Loop invariant of `dijkstra`, parameterized by the ghost state `S` (the
settled nodes, i.e. the nodes already popped and relaxed with a fresh cost) and
`rank` (a ranking certifying the acyclicity of the predecessor chains). -/
structure DInv (L : List Link) (s : String) (S : List String) (rank : String → Nat)
    (heap : List State) (visited dist : List (String × Nat)) : Prop where
  source_zero : alookup dist s = some 0
  ends_present : ∀ l ∈ L, (alookup dist l.«end»).isSome
  dist_le_max : ∀ v, distOf dist v ≤ USIZE_MAX
  visited_wf : ∀ v i, alookup visited v = some i → ∃ l, L[i]? = some l ∧
    l.«end» = v ∧ v ≠ s ∧ distOf dist v < USIZE_MAX ∧
    distOf dist l.start + l.weight ≤ distOf dist v
  visited_cover : ∀ v, v ≠ s → distOf dist v < USIZE_MAX → (alookup visited v).isSome
  dist_attained : ∀ v, distOf dist v < USIZE_MAX →
    ∃ p, isPath L s v p = true ∧ pathWeight L p = distOf dist v
  settled_opt : ∀ u ∈ S, ∀ q, isPath L s u q = true → distOf dist u ≤ pathWeight L q
  settled_relaxed : ∀ u ∈ S, ∀ l ∈ L, l.start = u →
    distOf dist l.«end» ≤ distOf dist u + l.weight
  fresh : ∀ v, distOf dist v < USIZE_MAX → v ∈ S ∨ State.mk v (distOf dist v) ∈ heap
  heap_sound : ∀ st ∈ heap, distOf dist st.node ≤ st.cost ∧ st.cost < USIZE_MAX
  pred_rank : ∀ v i l, alookup visited v = some i → L[i]? = some l →
    dltLex dist rank l.start v

/-- Pointwise update of a ranking, used when a relaxation rewrites a
predecessor entry. -/
def bumpRank (rank : String → Nat) (x : String) (r : Nat) : String → Nat :=
  fun y => if y = x then r else rank y

/-- Invariant maintained across the inner relaxation loop over the enumerated
links, while processing the freshly popped `node` with popped cost `cost`:
`DInv` with `node` already settled, except that only the out-edges of `node`
no longer in `rem` are guaranteed relaxed. -/
structure RInv (L : List Link) (s node : String) (cost : Nat) (S : List String)
    (rank : String → Nat) (rem : List (Nat × Link))
    (heap : List State) (visited dist : List (String × Nat)) : Prop where
  source_zero : alookup dist s = some 0
  ends_present : ∀ l ∈ L, (alookup dist l.«end»).isSome
  dist_le_max : ∀ v, distOf dist v ≤ USIZE_MAX
  visited_wf : ∀ v i, alookup visited v = some i → ∃ l, L[i]? = some l ∧
    l.«end» = v ∧ v ≠ s ∧ distOf dist v < USIZE_MAX ∧
    distOf dist l.start + l.weight ≤ distOf dist v
  visited_cover : ∀ v, v ≠ s → distOf dist v < USIZE_MAX → (alookup visited v).isSome
  dist_attained : ∀ v, distOf dist v < USIZE_MAX →
    ∃ p, isPath L s v p = true ∧ pathWeight L p = distOf dist v
  settled_opt : ∀ u ∈ node :: S, ∀ q, isPath L s u q = true →
    distOf dist u ≤ pathWeight L q
  settled_relaxed : ∀ u ∈ S, ∀ l ∈ L, l.start = u →
    distOf dist l.«end» ≤ distOf dist u + l.weight
  node_edges : ∀ l ∈ L, l.start = node →
    distOf dist l.«end» ≤ cost + l.weight ∨ ∃ i, (i, l) ∈ rem
  fresh : ∀ v, distOf dist v < USIZE_MAX →
    v ∈ node :: S ∨ State.mk v (distOf dist v) ∈ heap
  heap_sound : ∀ st ∈ heap, distOf dist st.node ≤ st.cost ∧ st.cost < USIZE_MAX
  pred_rank : ∀ v i l, alookup visited v = some i → L[i]? = some l →
    dltLex dist rank l.start v
  node_dist : distOf dist node = cost
  cost_lt : cost < USIZE_MAX
  rem_wf : ∀ i l, (i, l) ∈ rem → L[i]? = some l

/-- Volume contributed to the utilization accumulator by one demand. -/
def demandContribution (n : Network) (dem : TrafficDemand) : Nat :=
  match dijkstra n dem.source dem.destination with
  | some (some p) => p.length * dem.demand
  | _ => 0

/-! Basic lemmas about the association-list embedding of `HashMap`. -/

theorem alookup_ainsert_self {κ : Type} [DecidableEq κ] (m : List (κ × Nat)) (k : κ)
    (v : Nat) : alookup (ainsert m k v) k = some v := by
  induction m with
  | nil => simp [ainsert, alookup]
  | cons e t ih =>
    by_cases h : e.1 = k <;> simp [ainsert, alookup, h, ih]

theorem alookup_ainsert_ne {κ : Type} [DecidableEq κ] (m : List (κ × Nat)) (k x : κ)
    (v : Nat) (hne : k ≠ x) : alookup (ainsert m k v) x = alookup m x := by
  induction m with
  | nil => simp [ainsert, alookup, hne]
  | cons e t ih =>
    by_cases h : e.1 = k
    · simp [ainsert, alookup, h, hne]
    · by_cases h2 : e.1 = x <;> simp [ainsert, alookup, h, h2, ih, Ne.symm hne]

theorem sumVals_ainsert {κ : Type} [DecidableEq κ] (m : List (κ × Nat)) (k : κ)
    (v old : Nat) (h : alookup m k = some old) :
    sumVals (ainsert m k v) + old = sumVals m + v := by
  induction m with
  | nil => simp [alookup] at h
  | cons e t ih =>
    by_cases he : e.1 = k
    · simp only [alookup, he, if_pos rfl] at h
      cases h
      simp [ainsert, he, sumVals]
      omega
    · simp only [alookup, he, if_neg he] at h
      have := ih h
      simp only [ainsert, if_neg he, sumVals, List.map_cons, List.sum_cons] at *
      omega

theorem sumVals_addUtil {κ : Type} [DecidableEq κ] (m : List (κ × Nat)) (k : κ)
    (v : Nat) : sumVals (addUtil m k v) = sumVals m + v := by
  induction m with
  | nil => simp [addUtil, sumVals]
  | cons e t ih =>
    by_cases h : e.1 = k
    · simp only [addUtil, if_pos h, sumVals, List.map_cons, List.sum_cons]
      omega
    · simp only [addUtil, if_neg h, sumVals, List.map_cons, List.sum_cons] at ih ⊢
      omega

theorem alookup_mem {κ : Type} [DecidableEq κ] (m : List (κ × Nat)) (k : κ) (v : Nat)
    (h : alookup m k = some v) : (k, v) ∈ m := by
  induction m with
  | nil => simp [alookup] at h
  | cons e t ih =>
    obtain ⟨k', v'⟩ := e
    by_cases he : k' = k
    · subst he
      simp only [alookup, eq_self_iff_true, if_true, Option.some.injEq] at h
      subst h
      exact List.mem_cons_self _ _
    · simp only [alookup, if_neg he] at h
      exact List.mem_cons_of_mem _ (ih h)

theorem alookup_isSome_ainsert {κ : Type} [DecidableEq κ] (m : List (κ × Nat)) (k x : κ)
    (v : Nat) (h : (alookup m x).isSome) : (alookup (ainsert m k v) x).isSome := by
  by_cases he : k = x
  · subst he
    simp [alookup_ainsert_self]
  · rwa [alookup_ainsert_ne _ _ _ _ he]

theorem alookup_eq_some_distOf (dist : List (String × Nat)) (x : String)
    (h : (alookup dist x).isSome) : alookup dist x = some (distOf dist x) := by
  unfold distOf
  cases hx : alookup dist x with
  | none => rw [hx] at h; simp at h
  | some a => simp

theorem distOf_ainsert_self (m : List (String × Nat)) (k : String) (v : Nat) :
    distOf (ainsert m k v) k = v := by
  simp [distOf, alookup_ainsert_self]

theorem distOf_ainsert_ne (m : List (String × Nat)) (k x : String) (v : Nat)
    (h : k ≠ x) : distOf (ainsert m k v) x = distOf m x := by
  simp [distOf, alookup_ainsert_ne _ _ _ _ h]

/-! Lemmas about `popMin`, the embedding of `BinaryHeap::pop`. -/

theorem popMin_none_iff (h : List State) : popMin h = none ↔ h = [] := by
  cases h with
  | nil => simp [popMin]
  | cons x t =>
    cases hp : popMin t with
    | none => simp [popMin, hp]
    | some pr =>
      obtain ⟨y, r⟩ := pr
      by_cases hc : x.cost ≤ y.cost <;> simp [popMin, hp, hc]

theorem popMin_perm : ∀ (h : List State) (x : State) (r : List State),
    popMin h = some (x, r) → List.Perm h (x :: r) := by
  intro h
  induction h with
  | nil => intro x r hx; simp [popMin] at hx
  | cons a t ih =>
    intro x r hx
    cases hp : popMin t with
    | none =>
      simp only [popMin, hp, Option.some.injEq, Prod.mk.injEq] at hx
      obtain ⟨rfl, rfl⟩ := hx
      obtain rfl := (popMin_none_iff t).mp hp
      exact List.Perm.refl _
    | some pr =>
      obtain ⟨y, r'⟩ := pr
      simp only [popMin, hp] at hx
      by_cases hc : a.cost ≤ y.cost
      · rw [if_pos hc] at hx
        simp only [Option.some.injEq, Prod.mk.injEq] at hx
        obtain ⟨rfl, rfl⟩ := hx
        exact List.Perm.refl _
      · rw [if_neg hc] at hx
        simp only [Option.some.injEq, Prod.mk.injEq] at hx
        obtain ⟨rfl, rfl⟩ := hx
        exact ((ih y r' hp).cons a).trans (List.Perm.swap _ _ _)

theorem popMin_min : ∀ (h : List State) (x : State) (r : List State),
    popMin h = some (x, r) → ∀ st ∈ h, x.cost ≤ st.cost := by
  intro h
  induction h with
  | nil => intro x r hx; simp [popMin] at hx
  | cons a t ih =>
    intro x r hx st hst
    cases hp : popMin t with
    | none =>
      simp only [popMin, hp, Option.some.injEq, Prod.mk.injEq] at hx
      obtain ⟨rfl, rfl⟩ := hx
      rw [(popMin_none_iff t).mp hp] at hst
      simp only [List.mem_singleton] at hst
      simp [hst]
    | some pr =>
      obtain ⟨y, r'⟩ := pr
      simp only [popMin, hp] at hx
      by_cases hc : a.cost ≤ y.cost
      · rw [if_pos hc] at hx
        simp only [Option.some.injEq, Prod.mk.injEq] at hx
        obtain ⟨rfl, rfl⟩ := hx
        rcases List.mem_cons.mp hst with h1 | h2
        · simp [h1]
        · exact le_trans hc (ih y r' hp st h2)
      · rw [if_neg hc] at hx
        simp only [Option.some.injEq, Prod.mk.injEq] at hx
        obtain ⟨rfl, rfl⟩ := hx
        rcases List.mem_cons.mp hst with h1 | h2
        · subst h1
          omega
        · exact ih y r' hp st h2

/-! Lemmas about `enumerate`. -/

theorem enumerate_mem_get : ∀ (L : List Link) (k i : Nat) (l : Link),
    (i, l) ∈ enumerate k L → k ≤ i ∧ L[i - k]? = some l := by
  intro L
  induction L with
  | nil => intro k i l h; simp [enumerate] at h
  | cons a t ih =>
    intro k i l h
    simp only [enumerate, List.mem_cons] at h
    rcases h with h | h
    · cases h
      simp
    · obtain ⟨hk, hg⟩ := ih (k + 1) i l h
      refine ⟨by omega, ?_⟩
      have : i - k = (i - (k + 1)) + 1 := by omega
      rw [this]
      simpa using hg

theorem enumerate_complete : ∀ (L : List Link) (k : Nat) (l : Link), l ∈ L →
    ∃ i, (i, l) ∈ enumerate k L := by
  intro L
  induction L with
  | nil => intro k l h; simp at h
  | cons a t ih =>
    intro k l h
    rcases List.mem_cons.mp h with h | h
    · exact ⟨k, by simp [enumerate, h]⟩
    · obtain ⟨i, hi⟩ := ih (k + 1) l h
      exact ⟨i, List.mem_cons_of_mem _ hi⟩

/-! Lemmas about `isPath` and `pathWeight`. -/

theorem isPath_nil_iff (L : List Link) (a b : String) :
    isPath L a b [] = true ↔ a = b := by
  simp [isPath]

theorem pathWeight_nil (L : List Link) : pathWeight L [] = 0 := rfl

theorem pathWeight_append (L : List Link) (q r : List Nat) :
    pathWeight L (q ++ r) = pathWeight L q + pathWeight L r := by
  simp [pathWeight]

theorem pathWeight_singleton (L : List Link) (i : Nat) (l : Link)
    (h : L[i]? = some l) : pathWeight L [i] = l.weight := by
  simp [pathWeight, h]

theorem isPath_cons (L : List Link) (a b : String) (j : Nat) (t : List Nat) :
    isPath L a b (j :: t) = true ↔
      ∃ lj, L[j]? = some lj ∧ lj.start = a ∧ isPath L lj.«end» b t = true := by
  cases hg : L[j]? with
  | none => simp [isPath, hg]
  | some lj =>
    simp only [isPath, hg, Bool.and_eq_true, beq_iff_eq, Option.some.injEq]
    constructor
    · rintro ⟨h1, h2⟩
      exact ⟨lj, rfl, h1, h2⟩
    · rintro ⟨lj', heq, h1, h2⟩
      subst heq
      exact ⟨h1, h2⟩

theorem isPath_append_singleton (L : List Link) (a b : String) (q : List Nat) (i : Nat) :
    isPath L a b (q ++ [i]) = true ↔
      ∃ l, L[i]? = some l ∧ l.«end» = b ∧ isPath L a l.start q = true := by
  induction q generalizing a with
  | nil =>
    rw [List.nil_append, isPath_cons]
    constructor
    · rintro ⟨li, hg, hs, hnil⟩
      exact ⟨li, hg, (isPath_nil_iff _ _ _).mp hnil, (isPath_nil_iff _ _ _).mpr hs.symm⟩
    · rintro ⟨l, hl, hend, hstart⟩
      exact ⟨l, hl, ((isPath_nil_iff _ _ _).mp hstart).symm, (isPath_nil_iff _ _ _).mpr hend⟩
  | cons j t ih =>
    rw [List.cons_append, isPath_cons]
    constructor
    · rintro ⟨lj, hgj, hsj, htail⟩
      obtain ⟨l, hl, hend, hstart⟩ := (ih lj.«end»).mp htail
      exact ⟨l, hl, hend, (isPath_cons _ _ _ _ _).mpr ⟨lj, hgj, hsj, hstart⟩⟩
    · rintro ⟨l, hl, hend, hcons⟩
      obtain ⟨lj, hgj, hsj, hstart⟩ := (isPath_cons _ _ _ _ _).mp hcons
      exact ⟨lj, hgj, hsj, (ih lj.«end»).mpr ⟨l, hl, hend, hstart⟩⟩

theorem isPath_mem_lt_length (L : List Link) (a b : String) (p : List Nat)
    (h : isPath L a b p = true) : ∀ i ∈ p, i < L.length := by
  induction p generalizing a with
  | nil => simp
  | cons j t ih =>
    intro i hi
    simp only [isPath] at h
    cases hg : L[j]? with
    | none => rw [hg] at h; simp at h
    | some l =>
      rw [hg] at h
      simp only [Bool.and_eq_true, beq_iff_eq] at h
      rcases List.mem_cons.mp hi with h1 | h2
      · subst h1
        exact (List.getElem?_eq_some.mp hg).1
      · exact ih l.«end» h.2 i h2

/-! Machinery for the `dijkstra` invariant.  `dltLex` is the strict order along
which recorded predecessor links decrease (distance first, then an auxiliary rank
that tracks the relative update times): it makes the predecessor chains stored in
`visited` acyclic, which bounds the reconstruction walk. -/


theorem dltLex_trans (dist : List (String × Nat)) (rank : String → Nat)
    (a b c : String) (h1 : dltLex dist rank a b) (h2 : dltLex dist rank b c) :
    dltLex dist rank a c := by
  unfold dltLex at *
  omega

theorem dltLex_irrefl (dist : List (String × Nat)) (rank : String → Nat)
    (a : String) : ¬ dltLex dist rank a a := by
  unfold dltLex
  omega


theorem filter_length_le {α : Type} (v : List α) (p q : α → Bool)
    (h : ∀ x ∈ v, p x = true → q x = true) :
    (v.filter p).length ≤ (v.filter q).length := by
  induction v with
  | nil => simp
  | cons a t ih =>
    have ht : ∀ x ∈ t, p x = true → q x = true :=
      fun x hx => h x (List.mem_cons_of_mem _ hx)
    by_cases hp : p a = true
    · rw [List.filter_cons_of_pos hp, List.filter_cons_of_pos (h a (List.mem_cons_self _ _) hp)]
      simpa using ih ht
    · rw [List.filter_cons_of_neg (by simpa using hp)]
      by_cases hq : q a = true
      · rw [List.filter_cons_of_pos hq]
        exact le_trans (ih ht) (by simp)
      · rw [List.filter_cons_of_neg (by simpa using hq)]
        exact ih ht

theorem filter_length_lt {α : Type} (v : List α) (p q : α → Bool)
    (h : ∀ x ∈ v, p x = true → q x = true) (x0 : α) (hx0 : x0 ∈ v)
    (hq : q x0 = true) (hp : ¬ p x0 = true) :
    (v.filter p).length < (v.filter q).length := by
  induction v with
  | nil => simp at hx0
  | cons a t ih =>
    have ht : ∀ x ∈ t, p x = true → q x = true :=
      fun x hx => h x (List.mem_cons_of_mem _ hx)
    rcases List.mem_cons.mp hx0 with h1 | h2
    · subst h1
      rw [List.filter_cons_of_neg (by simpa using hp), List.filter_cons_of_pos hq]
      simpa [Nat.lt_succ_iff] using filter_length_le t p q ht
    · by_cases hpa : p a = true
      · rw [List.filter_cons_of_pos hpa, List.filter_cons_of_pos (h a (List.mem_cons_self _ _) hpa)]
        simpa using ih ht h2
      · rw [List.filter_cons_of_neg (by simpa using hpa)]
        by_cases hqa : q a = true
        · rw [List.filter_cons_of_pos hqa]
          exact lt_of_lt_of_le (ih ht h2) (by simp)
        · rw [List.filter_cons_of_neg (by simpa using hqa)]
          exact ih ht h2

theorem belowCount_le_length (visited dist : List (String × Nat))
    (rank : String → Nat) (cur : String) :
    belowCount visited dist rank cur ≤ visited.length :=
  List.length_filter_le _ _

theorem distOf_source (dist : List (String × Nat)) (s : String)
    (h : alookup dist s = some 0) : distOf dist s = 0 := by
  simp [distOf, h]

/-- Walking the predecessor chains recorded in `visited` succeeds whenever the
fuel exceeds the number of `visited` entries below the start of the walk, and
the collected link ids form a path from the source whose weight is bounded by
the recorded distance. -/
theorem reconstruct_spec (L : List Link) (s : String)
    (visited dist : List (String × Nat)) (rank : String → Nat)
    (hsrc : alookup dist s = some 0)
    (hwf : ∀ v i, alookup visited v = some i → ∃ l, L[i]? = some l ∧
      l.«end» = v ∧ v ≠ s ∧ distOf dist v < USIZE_MAX ∧
      distOf dist l.start + l.weight ≤ distOf dist v)
    (hcov : ∀ v, v ≠ s → distOf dist v < USIZE_MAX → (alookup visited v).isSome)
    (hrank : ∀ v i l, alookup visited v = some i → L[i]? = some l →
      dltLex dist rank l.start v) :
    ∀ (fuel : Nat) (cur : String), distOf dist cur < USIZE_MAX →
      belowCount visited dist rank cur < fuel →
      ∃ p, reconstruct L visited fuel cur = some p ∧ isPath L s cur p = true ∧
        pathWeight L p ≤ distOf dist cur := by
  intro fuel
  induction fuel with
  | zero => intro cur _ hb; omega
  | succ fuel ih =>
    intro cur hfin hb
    cases hv : alookup visited cur with
    | none =>
      have hcur : cur = s := by
        by_contra hne
        have hsome := hcov cur hne hfin
        rw [hv] at hsome
        simp at hsome
      subst hcur
      refine ⟨[], by simp [reconstruct, hv], by simp [isPath_nil_iff], by simp [pathWeight_nil]⟩
    | some lid =>
      obtain ⟨l, hl, hend, hnes, hfin2, htele⟩ := hwf cur lid hv
      have hstart_fin : distOf dist l.start < USIZE_MAX := by omega
      cases hv2 : alookup visited l.start with
      | none =>
        have hs2 : l.start = s := by
          by_contra hne
          have hsome := hcov l.start hne hstart_fin
          rw [hv2] at hsome
          simp at hsome
        have hrec : reconstruct L visited fuel l.start = some [] := by
          cases fuel with
          | zero => simp [reconstruct, hv2]
          | succ f => simp [reconstruct, hv2]
        refine ⟨[lid], by simp [reconstruct, hv, hl, hrec], ?_, ?_⟩
        · exact (isPath_cons L s cur lid []).mpr
            ⟨l, hl, hs2, (isPath_nil_iff _ _ _).mpr hend⟩
        · rw [pathWeight_singleton L lid l hl]
          omega
      | some lid2 =>
        have hlex : dltLex dist rank l.start cur := hrank cur lid l hv hl
        have hbelow : belowCount visited dist rank l.start <
            belowCount visited dist rank cur := by
          apply filter_length_lt _ _ _ ?_ (l.start, lid2) (alookup_mem _ _ _ hv2) ?_ ?_
          · intro x _ hx
            rw [decide_eq_true_eq] at hx ⊢
            exact dltLex_trans dist rank _ _ _ hx hlex
          · rw [decide_eq_true_eq]
            exact hlex
          · rw [decide_eq_true_eq]
            exact dltLex_irrefl dist rank l.start
        obtain ⟨p, hp, hpath, hwt⟩ := ih l.start hstart_fin (by omega)
        refine ⟨p ++ [lid], by simp [reconstruct, hv, hl, hp], ?_, ?_⟩
        · exact (isPath_append_singleton L s cur p lid).mpr ⟨l, hl, hend, hpath⟩
        · rw [pathWeight_append, pathWeight_singleton L lid l hl]
          omega

theorem getElem?_mem (L : List Link) (i : Nat) (l : Link) (h : L[i]? = some l) :
    l ∈ L := by
  obtain ⟨hlt, he⟩ := List.getElem?_eq_some.mp h
  exact he ▸ List.getElem_mem hlt

/-- Core bound of the optimality argument: when the minimum cost in the heap is
`c`, every path from the source to any node `u` either already exceeds the
recorded distance of `u` or costs at least `c`. -/
theorem popBound (L : List Link) (s : String) (S : List String) (rank : String → Nat)
    (heap : List State) (visited dist : List (String × Nat))
    (inv : DInv L s S rank heap visited dist) (c : Nat)
    (hmin : ∀ st ∈ heap, c ≤ st.cost) (hc : c < USIZE_MAX) :
    ∀ (q : List Nat) (u : String), isPath L s u q = true →
      distOf dist u ≤ pathWeight L q ∨ c ≤ pathWeight L q := by
  intro q
  induction q using List.reverseRecOn with
  | nil =>
    intro u hu
    rw [isPath_nil_iff] at hu
    subst hu
    left
    rw [distOf_source dist s inv.source_zero, pathWeight_nil]
  | append_singleton q i ih =>
    intro u hu
    obtain ⟨l, hl, hend, hstart⟩ := (isPath_append_singleton L s u q i).mp hu
    rw [pathWeight_append, pathWeight_singleton L i l hl]
    rcases ih l.start hstart with h1 | h2
    · by_cases hm : l.start ∈ S
      · left
        have hrel := inv.settled_relaxed l.start hm l (getElem?_mem L i l hl) rfl
        rw [← hend]
        omega
      · by_cases hfin : distOf dist l.start < USIZE_MAX
        · rcases inv.fresh l.start hfin with hS | hheap
          · exact absurd hS hm
          · right
            have hcle := hmin _ hheap
            simp only at hcle
            omega
        · right
          have hle := inv.dist_le_max l.start
          omega
    · right
      omega


theorem bumpRank_self (rank : String → Nat) (x : String) (r : Nat) :
    bumpRank rank x r x = r := if_pos rfl

theorem bumpRank_ne (rank : String → Nat) (x : String) (r : Nat) (y : String)
    (h : y ≠ x) : bumpRank rank x r y = rank y := if_neg h


/-- Relaxing the remaining out-edges restores the loop invariant with `node`
settled, without increasing the measure (heap size plus total recorded
distance): every push is paid for by a strict distance decrease. -/
theorem relaxFrom_spec (L : List Link) (s node : String) (cost : Nat)
    (S : List String) :
    ∀ (rem : List (Nat × Link)) (rank : String → Nat) (heap : List State)
      (visited dist : List (String × Nat)),
      RInv L s node cost S rank rem heap visited dist →
      ∃ rank',
        DInv L s (node :: S) rank'
          (relaxFrom node cost rem (heap, visited, dist)).1
          (relaxFrom node cost rem (heap, visited, dist)).2.1
          (relaxFrom node cost rem (heap, visited, dist)).2.2 ∧
        (relaxFrom node cost rem (heap, visited, dist)).1.length +
          sumVals (relaxFrom node cost rem (heap, visited, dist)).2.2 ≤
          heap.length + sumVals dist := by
  intro rem
  induction rem with
  | nil =>
    intro rank heap visited dist inv
    refine ⟨rank, ?_, ?_⟩
    · show DInv L s (node :: S) rank heap visited dist
      refine ⟨inv.source_zero, inv.ends_present, inv.dist_le_max, inv.visited_wf,
        inv.visited_cover, inv.dist_attained, inv.settled_opt, ?_, inv.fresh,
        inv.heap_sound, inv.pred_rank⟩
      intro u hu l hlL hst
      rcases List.mem_cons.mp hu with h1 | h2
      · subst h1
        rcases inv.node_edges l hlL hst with hle | ⟨i, hi⟩
        · have hnd := inv.node_dist
          omega
        · simp at hi
      · exact inv.settled_relaxed u h2 l hlL hst
    · show heap.length + sumVals dist ≤ heap.length + sumVals dist
      exact le_refl _
  | cons e rest ih =>
    obtain ⟨i, l⟩ := e
    intro rank heap visited dist inv
    by_cases hstart : l.start = node
    · by_cases hrelax : cost + l.weight < distOf dist l.«end»
      · -- the relaxation fires
        have hre : relaxFrom node cost ((i, l) :: rest) (heap, visited, dist) =
            relaxFrom node cost rest
              (heap ++ [⟨l.«end», cost + l.weight⟩], ainsert visited l.«end» i,
                ainsert dist l.«end» (cost + l.weight)) := by
          simp [relaxFrom, hstart, hrelax]
        rw [hre]
        have hgi : L[i]? = some l := inv.rem_wf i l (List.mem_cons_self _ _)
        have hlL : l ∈ L := getElem?_mem L i l hgi
        have hxsome : (alookup dist l.«end»).isSome := inv.ends_present l hlL
        have holdx : alookup dist l.«end» = some (distOf dist l.«end») :=
          alookup_eq_some_distOf _ _ hxsome
        have hxmax : distOf dist l.«end» ≤ USIZE_MAX := inv.dist_le_max _
        have hncmax : cost + l.weight < USIZE_MAX := by omega
        have hxns : l.«end» ≠ s := by
          intro he
          have h0 : distOf dist s = 0 := distOf_source _ _ inv.source_zero
          rw [he, h0] at hrelax
          omega
        have hxnn : l.«end» ≠ node := by
          intro he
          rw [he, inv.node_dist] at hrelax
          omega
        have hnfin : distOf dist node < USIZE_MAX := by
          rw [inv.node_dist]; exact inv.cost_lt
        obtain ⟨p0, hp0, hw0⟩ := inv.dist_attained node hnfin
        have hp0s : isPath L s l.start p0 = true := by rw [hstart]; exact hp0
        have hpathx : isPath L s l.«end» (p0 ++ [i]) = true :=
          (isPath_append_singleton L s l.«end» p0 i).mpr ⟨l, hgi, rfl, hp0s⟩
        have hwx : pathWeight L (p0 ++ [i]) = cost + l.weight := by
          rw [pathWeight_append, pathWeight_singleton L i l hgi, hw0, inv.node_dist]
        have hxnotS : l.«end» ∉ node :: S := by
          intro hmem
          have hle := inv.settled_opt _ hmem _ hpathx
          rw [hwx] at hle
          omega
        have hdx : distOf (ainsert dist l.«end» (cost + l.weight)) l.«end» =
            cost + l.weight := distOf_ainsert_self _ _ _
        have hdne : ∀ y, y ≠ l.«end» →
            distOf (ainsert dist l.«end» (cost + l.weight)) y = distOf dist y :=
          fun y hy => distOf_ainsert_ne dist _ y _ (Ne.symm hy)
        have hmono : ∀ y, distOf (ainsert dist l.«end» (cost + l.weight)) y ≤
            distOf dist y := by
          intro y
          by_cases hy : y = l.«end»
          · subst hy; rw [hdx]; omega
          · rw [hdne y hy]
        have hinvNew : RInv L s node cost S (bumpRank rank l.«end» (rank node + 1))
            rest (heap ++ [⟨l.«end», cost + l.weight⟩]) (ainsert visited l.«end» i)
            (ainsert dist l.«end» (cost + l.weight)) := by
          refine ⟨?_, ?_, ?_, ?_, ?_, ?_, ?_, ?_, ?_, ?_, ?_, ?_, ?_, inv.cost_lt, ?_⟩
          · rw [alookup_ainsert_ne _ _ _ _ hxns]
            exact inv.source_zero
          · intro l' hl'
            exact alookup_isSome_ainsert _ _ _ _ (inv.ends_present l' hl')
          · intro v
            by_cases hv : v = l.«end»
            · subst hv; rw [hdx]; omega
            · rw [hdne v hv]; exact inv.dist_le_max v
          · intro v j hvj
            by_cases hv : v = l.«end»
            · subst hv
              rw [alookup_ainsert_self] at hvj
              injection hvj with hj
              subst hj
              refine ⟨l, hgi, rfl, hxns, ?_, ?_⟩
              · rw [hdx]; exact hncmax
              · rw [hdx, hstart, hdne node (Ne.symm hxnn), inv.node_dist]
            · rw [alookup_ainsert_ne _ _ _ _ (Ne.symm hv)] at hvj
              obtain ⟨l', hgl', hend', hnes', hfin', htele'⟩ := inv.visited_wf v j hvj
              refine ⟨l', hgl', hend', hnes', ?_, ?_⟩
              · rw [hdne v hv]; exact hfin'
              · have h1 := hmono l'.start
                rw [hdne v hv]
                omega
          · intro v hvs hvfin
            by_cases hv : v = l.«end»
            · subst hv
              rw [alookup_ainsert_self]
              simp
            · rw [hdne v hv] at hvfin
              exact alookup_isSome_ainsert _ _ _ _ (inv.visited_cover v hvs hvfin)
          · intro v hvfin
            by_cases hv : v = l.«end»
            · subst hv
              exact ⟨p0 ++ [i], hpathx, by rw [hwx, hdx]⟩
            · rw [hdne v hv] at hvfin ⊢
              exact inv.dist_attained v hvfin
          · intro u hu q hq
            have hne : u ≠ l.«end» := fun he => hxnotS (he ▸ hu)
            rw [hdne u hne]
            exact inv.settled_opt u hu q hq
          · intro u hu l' hl' hst'
            have hneu : u ≠ l.«end» := fun he => hxnotS (he ▸ List.mem_cons_of_mem _ hu)
            have h1 := inv.settled_relaxed u hu l' hl' hst'
            have h2 := hmono l'.«end»
            rw [hdne u hneu]
            omega
          · intro l' hl' hst'
            rcases inv.node_edges l' hl' hst' with hle | ⟨i', hi'⟩
            · left
              have h2 := hmono l'.«end»
              omega
            · rcases List.mem_cons.mp hi' with heq | hmem
              · injection heq with h1 h2
                subst h2
                left
                rw [hdx]
              · exact Or.inr ⟨i', hmem⟩
          · intro v hvfin
            by_cases hv : v = l.«end»
            · subst hv
              right
              rw [hdx]
              simp
            · rw [hdne v hv] at hvfin ⊢
              rcases inv.fresh v hvfin with hS | hh
              · exact Or.inl hS
              · exact Or.inr (List.mem_append_left _ hh)
          · intro st hst
            rcases List.mem_append.mp hst with hh | hh
            · obtain ⟨h1, h2⟩ := inv.heap_sound st hh
              exact ⟨le_trans (hmono st.node) h1, h2⟩
            · rw [List.mem_singleton] at hh
              subst hh
              refine ⟨?_, hncmax⟩
              show distOf _ l.«end» ≤ cost + l.weight
              rw [hdx]
          · intro v j l'' hvj hgl''
            by_cases hv : v = l.«end»
            · subst hv
              rw [alookup_ainsert_self] at hvj
              injection hvj with hj
              subst hj
              rw [hgi] at hgl''
              injection hgl'' with hl''
              subst hl''
              unfold dltLex
              rw [hstart, hdne node (Ne.symm hxnn), inv.node_dist, hdx,
                bumpRank_ne rank _ _ node (Ne.symm hxnn), bumpRank_self]
              omega
            · rw [alookup_ainsert_ne _ _ _ _ (Ne.symm hv)] at hvj
              have holdp := inv.pred_rank v j l'' hvj hgl''
              by_cases hz : l''.start = l.«end»
              · unfold dltLex at holdp ⊢
                rw [hz] at holdp ⊢
                rw [hdx, hdne v hv]
                left
                omega
              · unfold dltLex at holdp ⊢
                rw [hdne v hv, hdne l''.start hz, bumpRank_ne rank _ _ v hv,
                  bumpRank_ne rank _ _ l''.start hz]
                exact holdp
          · rw [hdne node (Ne.symm hxnn)]
            exact inv.node_dist
          · exact fun i' l' h => inv.rem_wf i' l' (List.mem_cons_of_mem _ h)
        obtain ⟨rank', hinv', hmeas⟩ := ih _ _ _ _ hinvNew
        refine ⟨rank', hinv', le_trans hmeas ?_⟩
        have hsum := sumVals_ainsert dist l.«end» (cost + l.weight) _ holdx
        simp only [List.length_append, List.length_singleton]
        omega
      · -- edge already relaxed enough: skip
        have hre : relaxFrom node cost ((i, l) :: rest) (heap, visited, dist) =
            relaxFrom node cost rest (heap, visited, dist) := by
          simp [relaxFrom, hstart, hrelax]
        rw [hre]
        refine ih rank heap visited dist
          ⟨inv.source_zero, inv.ends_present, inv.dist_le_max, inv.visited_wf,
            inv.visited_cover, inv.dist_attained, inv.settled_opt,
            inv.settled_relaxed, ?_, inv.fresh, inv.heap_sound, inv.pred_rank,
            inv.node_dist, inv.cost_lt, ?_⟩
        · intro l' hl' hst'
          rcases inv.node_edges l' hl' hst' with h | ⟨i', hi'⟩
          · exact Or.inl h
          · rcases List.mem_cons.mp hi' with heq | hmem
            · injection heq with h1 h2
              subst h2
              left
              omega
            · exact Or.inr ⟨i', hmem⟩
        · exact fun i' l' h => inv.rem_wf i' l' (List.mem_cons_of_mem _ h)
    · -- edge does not leave `node`: skip
      have hre : relaxFrom node cost ((i, l) :: rest) (heap, visited, dist) =
          relaxFrom node cost rest (heap, visited, dist) := by
        simp [relaxFrom, hstart]
      rw [hre]
      refine ih rank heap visited dist
        ⟨inv.source_zero, inv.ends_present, inv.dist_le_max, inv.visited_wf,
          inv.visited_cover, inv.dist_attained, inv.settled_opt,
          inv.settled_relaxed, ?_, inv.fresh, inv.heap_sound, inv.pred_rank,
          inv.node_dist, inv.cost_lt, ?_⟩
      · intro l' hl' hst'
        rcases inv.node_edges l' hl' hst' with h | ⟨i', hi'⟩
        · exact Or.inl h
        · rcases List.mem_cons.mp hi' with heq | hmem
          · exfalso
            injection heq with h1 h2
            subst h2
            exact hstart hst'
          · exact Or.inr ⟨i', hmem⟩
      · exact fun i' l' h => inv.rem_wf i' l' (List.mem_cons_of_mem _ h)

theorem initDist_aux_lookup : ∀ (ls : List Link) (m : List (String × Nat)),
    (∀ v, alookup m v = none ∨ alookup m v = some USIZE_MAX) →
    ∀ v, alookup (ls.foldl (fun m l =>
        ainsert (ainsert m l.start USIZE_MAX) l.«end» USIZE_MAX) m) v = none ∨
      alookup (ls.foldl (fun m l =>
        ainsert (ainsert m l.start USIZE_MAX) l.«end» USIZE_MAX) m) v = some USIZE_MAX := by
  intro ls
  induction ls with
  | nil => intro m hm v; exact hm v
  | cons a t ih =>
    intro m hm v
    simp only [List.foldl_cons]
    apply ih
    intro w
    by_cases hw : w = a.«end»
    · subst hw
      rw [alookup_ainsert_self]
      exact Or.inr rfl
    · rw [alookup_ainsert_ne _ _ _ _ (fun he => hw he.symm)]
      by_cases hw2 : w = a.start
      · subst hw2
        rw [alookup_ainsert_self]
        exact Or.inr rfl
      · rw [alookup_ainsert_ne _ _ _ _ (fun he => hw2 he.symm)]
        exact hm w

theorem initDist_lookup (L : List Link) (v : String) :
    alookup (initDist L) v = none ∨ alookup (initDist L) v = some USIZE_MAX :=
  initDist_aux_lookup L [] (fun _ => Or.inl rfl) v

theorem foldl_preserves_isSome : ∀ (ls : List Link) (m : List (String × Nat)) (k : String),
    (alookup m k).isSome →
    (alookup (ls.foldl (fun m l =>
      ainsert (ainsert m l.start USIZE_MAX) l.«end» USIZE_MAX) m) k).isSome := by
  intro ls
  induction ls with
  | nil => intro m k h; exact h
  | cons a t ih =>
    intro m k h
    simp only [List.foldl_cons]
    exact ih _ k (alookup_isSome_ainsert _ _ _ _ (alookup_isSome_ainsert _ _ _ _ h))

theorem initDist_covers_aux : ∀ (ls : List Link) (m : List (String × Nat)) (l : Link),
    l ∈ ls →
    (alookup (ls.foldl (fun m l =>
      ainsert (ainsert m l.start USIZE_MAX) l.«end» USIZE_MAX) m) l.«end»).isSome := by
  intro ls
  induction ls with
  | nil => intro m l h; simp at h
  | cons a t ih =>
    intro m l hl
    simp only [List.foldl_cons]
    rcases List.mem_cons.mp hl with h1 | h2
    · subst h1
      apply foldl_preserves_isSome
      rw [alookup_ainsert_self]
      simp
    · exact ih _ l h2

theorem initDist_covers (L : List Link) (l : Link) (hl : l ∈ L) :
    (alookup (initDist L) l.«end»).isSome :=
  initDist_covers_aux L [] l hl

/-- The invariant holds in the initial state of `dijkstra`. -/
theorem dijkstra_init (L : List Link) (s : String) :
    DInv L s [] (fun _ => 0) [⟨s, 0⟩] [] (ainsert (initDist L) s 0) := by
  have hsz : alookup (ainsert (initDist L) s 0) s = some 0 := alookup_ainsert_self _ _ _
  have hs0 : distOf (ainsert (initDist L) s 0) s = 0 := distOf_source _ _ hsz
  have hne : ∀ v, v ≠ s → distOf (ainsert (initDist L) s 0) v = USIZE_MAX := by
    intro v hv
    unfold distOf
    rw [alookup_ainsert_ne _ _ _ _ (fun he => hv he.symm)]
    rcases initDist_lookup L v with h | h <;> rw [h] <;> simp
  refine ⟨hsz, ?_, ?_, ?_, ?_, ?_, ?_, ?_, ?_, ?_, ?_⟩
  · intro l hl
    exact alookup_isSome_ainsert _ _ _ _ (initDist_covers L l hl)
  · intro v
    by_cases hv : v = s
    · subst hv; rw [hs0]; omega
    · rw [hne v hv]
  · intro v i h
    simp [alookup] at h
  · intro v hv hfin
    rw [hne v hv] at hfin
    omega
  · intro v hfin
    by_cases hv : v = s
    · subst hv
      exact ⟨[], (isPath_nil_iff _ _ _).mpr rfl, by rw [pathWeight_nil, hs0]⟩
    · rw [hne v hv] at hfin
      omega
  · intro u hu
    simp at hu
  · intro u hu
    simp at hu
  · intro v hfin
    by_cases hv : v = s
    · subst hv
      right
      rw [hs0]
      simp
    · rw [hne v hv] at hfin
      omega
  · intro st hst
    simp only [List.mem_singleton] at hst
    subst hst
    refine ⟨?_, ?_⟩
    · show distOf _ s ≤ 0
      rw [hs0]
    · show (0 : Nat) < USIZE_MAX
      decide
  · intro v i l h
    simp [alookup] at h

/-- Main correctness lemma for the loop of `dijkstra`: with fuel above the
measure the loop returns (no fuel exhaustion, no reconstruction failure), and a
returned path is a valid path from source to destination of minimal total
weight. -/
theorem dijkstraLoop_spec (L : List Link) (s d : String) :
    ∀ (fuel : Nat) (heap : List State) (visited dist : List (String × Nat))
      (S : List String) (rank : String → Nat),
      DInv L s S rank heap visited dist →
      heap.length + sumVals dist < fuel →
      ∃ r, dijkstraLoop L d fuel heap visited dist = some r ∧
        ∀ p, r = some p → isPath L s d p = true ∧
          ∀ q, isPath L s d q = true → pathWeight L p ≤ pathWeight L q := by
  intro fuel
  induction fuel with
  | zero =>
    intro heap visited dist S rank _ hm
    omega
  | succ fuel ih =>
    intro heap visited dist S rank inv hm
    cases hp : popMin heap with
    | none =>
      refine ⟨none, by simp [dijkstraLoop, hp], ?_⟩
      intro p hp'
      cases hp'
    | some pr =>
      obtain ⟨⟨node, cost⟩, heap2⟩ := pr
      have hperm := popMin_perm heap _ _ hp
      have hmempop : State.mk node cost ∈ heap := hperm.mem_iff.mpr (List.mem_cons_self _ _)
      have hmin0 := popMin_min heap _ _ hp
      obtain ⟨hnd0, hclt0⟩ := inv.heap_sound _ hmempop
      have hnd : distOf dist node ≤ cost := hnd0
      have hclt : cost < USIZE_MAX := hclt0
      have hlen : heap2.length + 1 = heap.length := by
        have hl := hperm.length_eq
        simp at hl
        omega
      by_cases hd : node = d
      · subst hd
        have hdfin : distOf dist node < USIZE_MAX := lt_of_le_of_lt hnd hclt
        obtain ⟨p, hrec, hpath, hwt⟩ := reconstruct_spec L s visited dist rank
          inv.source_zero inv.visited_wf inv.visited_cover inv.pred_rank
          (visited.length + 1) node hdfin
          (by have := belowCount_le_length visited dist rank node; omega)
        refine ⟨some p, by simp [dijkstraLoop, hp, hrec], ?_⟩
        intro p' hp'
        injection hp' with hpe
        subst hpe
        refine ⟨hpath, ?_⟩
        intro q hq
        rcases popBound L s S rank heap visited dist inv cost hmin0 hclt q node hq
          with h1 | h2
        · omega
        · omega
      · by_cases hstale : distOf dist node < cost
        · have hinv2 : DInv L s S rank heap2 visited dist := by
            refine ⟨inv.source_zero, inv.ends_present, inv.dist_le_max, inv.visited_wf,
              inv.visited_cover, inv.dist_attained, inv.settled_opt, inv.settled_relaxed,
              ?_, ?_, inv.pred_rank⟩
            · intro v hvfin
              rcases inv.fresh v hvfin with h1 | h2
              · exact Or.inl h1
              · right
                rcases List.mem_cons.mp (hperm.mem_iff.mp h2) with he | he
                · exfalso
                  injection he with h3 h4
                  subst h3
                  omega
                · exact he
            · intro st hst
              exact inv.heap_sound st (hperm.mem_iff.mpr (List.mem_cons_of_mem _ hst))
          obtain ⟨r, hr, hrp⟩ := ih heap2 visited dist S rank hinv2 (by omega)
          refine ⟨r, ?_, hrp⟩
          simp only [dijkstraLoop, hp, if_neg hd, if_pos hstale]
          exact hr
        · have hceq : cost = distOf dist node := le_antisymm (by omega) hnd
          have hsettled : ∀ q, isPath L s node q = true →
              distOf dist node ≤ pathWeight L q := by
            intro q hq
            rcases popBound L s S rank heap visited dist inv cost hmin0 hclt q node hq
              with h1 | h2
            · exact h1
            · omega
          have hinvR : RInv L s node cost S rank (enumerate 0 L) heap2 visited dist := by
            refine ⟨inv.source_zero, inv.ends_present, inv.dist_le_max, inv.visited_wf,
              inv.visited_cover, inv.dist_attained, ?_, inv.settled_relaxed, ?_, ?_, ?_,
              inv.pred_rank, hceq.symm, hclt, ?_⟩
            · intro u hu q hq
              rcases List.mem_cons.mp hu with h1 | h2
              · subst h1
                exact hsettled q hq
              · exact inv.settled_opt u h2 q hq
            · intro l hlL hst
              obtain ⟨i, hi⟩ := enumerate_complete L 0 l hlL
              exact Or.inr ⟨i, hi⟩
            · intro v hvfin
              rcases inv.fresh v hvfin with h1 | h2
              · exact Or.inl (List.mem_cons_of_mem _ h1)
              · rcases List.mem_cons.mp (hperm.mem_iff.mp h2) with he | he
                · left
                  injection he with h3 h4
                  subst h3
                  exact List.mem_cons_self _ _
                · exact Or.inr he
            · intro st hst
              exact inv.heap_sound st (hperm.mem_iff.mpr (List.mem_cons_of_mem _ hst))
            · intro i l hi
              have hg := enumerate_mem_get L 0 i l hi
              simpa using hg.2
          obtain ⟨rank', hinv', hmeas⟩ := relaxFrom_spec L s node cost S (enumerate 0 L)
            rank heap2 visited dist hinvR
          obtain ⟨r, hr, hrp⟩ := ih
            (relaxFrom node cost (enumerate 0 L) (heap2, visited, dist)).1
            (relaxFrom node cost (enumerate 0 L) (heap2, visited, dist)).2.1
            (relaxFrom node cost (enumerate 0 L) (heap2, visited, dist)).2.2
            (node :: S) rank' hinv' (by omega)
          refine ⟨r, ?_, hrp⟩
          simp only [dijkstraLoop, hp, if_neg hd, if_neg hstale]
          rcases hres : relaxFrom node cost (enumerate 0 L) (heap2, visited, dist)
            with ⟨h3, v3, d3⟩
          rw [hres] at hr
          exact hr

theorem dijkstra_eq (n : Network) (s d : String) :
    dijkstra n s d = dijkstraLoop n.links d
      (1 + 1 + sumVals (ainsert (initDist n.links) s 0)) [⟨s, 0⟩] []
      (ainsert (initDist n.links) s 0) := rfl

/-- Total correctness of `dijkstra`: the result is never `none` (the fuel
dominates the measure, reconstruction succeeds, no index is out of bounds), and
a returned path is a valid minimum-weight path from source to destination. -/
theorem dijkstra_spec (n : Network) (s d : String) :
    ∃ r, dijkstra n s d = some r ∧
      ∀ p, r = some p → isPath n.links s d p = true ∧
        ∀ q, isPath n.links s d q = true →
          pathWeight n.links p ≤ pathWeight n.links q := by
  rw [dijkstra_eq]
  exact dijkstraLoop_spec n.links s d _ [⟨s, 0⟩] [] _ [] (fun _ => 0)
    (dijkstra_init n.links s) (by simp only [List.length_singleton]; omega)

/-- Conversion from the chain predicate to the index-by-index conditions of the
specification's path-validity property. -/
theorem isPath_index (L : List Link) (a b : String) (p : List Nat)
    (h : isPath L a b p = true) :
    ∀ (k : Nat) (hk : k < p.length), ∃ l, L[p.get ⟨k, hk⟩]? = some l ∧
      (k = 0 → l.start = a) ∧
      (k + 1 = p.length → l.«end» = b) ∧
      (∀ hk2 : k + 1 < p.length, ∃ l2, L[p.get ⟨k + 1, hk2⟩]? = some l2 ∧
        l.«end» = l2.start) := by
  induction p generalizing a with
  | nil =>
    intro k hk
    simp at hk
  | cons j t ih =>
    intro k hk
    obtain ⟨lj, hgj, hsj, hrest⟩ := (isPath_cons L a b j t).mp h
    cases k with
    | zero =>
      refine ⟨lj, hgj, fun _ => hsj, ?_, ?_⟩
      · intro h1
        have ht : t = [] := by
          cases t with
          | nil => rfl
          | cons x xs => simp at h1
        subst ht
        exact (isPath_nil_iff _ _ _).mp hrest
      · intro hk2
        have htlen : 0 < t.length := by simpa using hk2
        obtain ⟨l2, hg2, hcond2⟩ := ih lj.«end» hrest 0 htlen
        exact ⟨l2, hg2, (hcond2.1 rfl).symm⟩
    | succ k' =>
      have hk' : k' < t.length := by simpa using hk
      obtain ⟨l, hgl, hc1, hc2, hc3⟩ := ih lj.«end» hrest k' hk'
      refine ⟨l, hgl, ?_, ?_, ?_⟩
      · intro h1
        cases h1
      · intro h1
        apply hc2
        simpa using h1
      · intro hk2
        have hk2' : k' + 1 < t.length := by simpa using hk2
        obtain ⟨l2, hg2, he2⟩ := hc3 hk2'
        exact ⟨l2, hg2, he2⟩

/-- Every nonempty path witnesses that its endpoints occur in the network. -/
theorem isPath_endpoints (L : List Link) (a b : String) (p : List Nat)
    (h : isPath L a b p = true) (hne : p ≠ []) :
    (∃ l ∈ L, l.start = a) ∧ ∃ l ∈ L, l.«end» = b := by
  induction p generalizing a with
  | nil => exact absurd rfl hne
  | cons j t ih =>
    obtain ⟨lj, hgj, hsj, hrest⟩ := (isPath_cons L a b j t).mp h
    have hmem : lj ∈ L := getElem?_mem L j lj hgj
    cases t with
    | nil =>
      have hend : lj.«end» = b := (isPath_nil_iff _ _ _).mp hrest
      exact ⟨⟨lj, hmem, hsj⟩, ⟨lj, hmem, hend⟩⟩
    | cons x xs =>
      obtain ⟨_, h2⟩ := ih lj.«end» hrest (by simp)
      exact ⟨⟨lj, hmem, hsj⟩, h2⟩

theorem absent_no_path (n : Network) (s d : String) (hne : s ≠ d)
    (habs : absentFrom n s ∨ absentFrom n d) (q : List Nat) :
    ¬ isPath n.links s d q = true := by
  intro hq
  cases q with
  | nil =>
    rw [isPath_nil_iff] at hq
    exact hne hq
  | cons j t =>
    obtain ⟨⟨l1, hm1, hs1⟩, ⟨l2, hm2, he2⟩⟩ :=
      isPath_endpoints n.links s d (j :: t) hq (by simp)
    rcases habs with h | h
    · exact (h l1 hm1).1 hs1
    · exact (h l2 hm2).2 he2

/-- C1.  For every network (the embedding's link weights are arbitrary `Nat`,
hence non-negative) and every (source, destination) pair for which `dijkstra`
returns a path, the total weight of that path is less than or equal to the total
weight of every other valid directed path from source to destination. -/
theorem dijkstra_returns_minimum_weight_path (n : Network) (s d : String)
    (p : List Nat) (h : dijkstra n s d = some (some p)) :
    ∀ q, isPath n.links s d q = true →
      pathWeight n.links p ≤ pathWeight n.links q := by
  obtain ⟨r, hr, hrp⟩ := dijkstra_spec n s d
  rw [hr] at h
  injection h with h2
  exact (hrp p h2).2

/-- C1 (witness): on scenario S2, `dijkstra` returns `[0, 2]` and its weight is
bounded by the weight of the alternative valid path `[1, 3]`. -/
theorem dijkstra_returns_minimum_weight_path_witness :
    pathWeight NET_S2.links [0, 2] ≤ pathWeight NET_S2.links [1, 3] :=
  dijkstra_returns_minimum_weight_path NET_S2 "A" "D" [0, 2] (by decide) [1, 3]
    (by decide)

/-- C2.  Every path returned by `dijkstra` is a sequence of link ids whose first
link starts at the source, in which the end of every link is the start of the
next, and whose last link ends at the destination. -/
theorem dijkstra_path_chains (n : Network) (s d : String) (p : List Nat)
    (h : dijkstra n s d = some (some p)) :
    ∀ (k : Nat) (hk : k < p.length), ∃ l, n.links[p.get ⟨k, hk⟩]? = some l ∧
      (k = 0 → l.start = s) ∧
      (k + 1 = p.length → l.«end» = d) ∧
      (∀ hk2 : k + 1 < p.length, ∃ l2, n.links[p.get ⟨k + 1, hk2⟩]? = some l2 ∧
        l.«end» = l2.start) := by
  obtain ⟨r, hr, hrp⟩ := dijkstra_spec n s d
  rw [hr] at h
  injection h with h2
  exact isPath_index n.links s d p (hrp p h2).1

/-- C2 (witness): the chain conditions at position 0 of the path returned on
scenario S2. -/
theorem dijkstra_path_chains_witness :
    ∃ l, NET_S2.links[([0, 2] : List Nat).get ⟨0, by decide⟩]? = some l ∧
      (0 = 0 → l.start = "A") ∧
      (0 + 1 = ([0, 2] : List Nat).length → l.«end» = "D") ∧
      (∀ hk2 : 0 + 1 < ([0, 2] : List Nat).length,
        ∃ l2, NET_S2.links[([0, 2] : List Nat).get ⟨0 + 1, hk2⟩]? = some l2 ∧
          l.«end» = l2.start) :=
  dijkstra_path_chains NET_S2 "A" "D" [0, 2] (by decide) 0 (by decide)

/-- C3 (counterexample).  With source = destination = "C" absent from the empty
network, `dijkstra` does not report Unreachable: it returns the empty path
(the reconstruction walk finds no predecessor and yields zero links), contrary
to the claim that an absent endpoint yields `None`. -/
theorem dijkstra_self_pair_not_unreachable :
    absentFrom ⟨[]⟩ "C" ∧
    dijkstra ⟨[]⟩ "C" "C" = some (some []) ∧
    dijkstra ⟨[]⟩ "C" "C" ≠ some none := by
  refine ⟨by decide, by decide, by decide⟩

/-- C3 (amended).  If the source differs from the destination and the source or
destination is absent from the graph, or no directed path between them exists,
then `dijkstra` reports Unreachable (`None`) and the demand contributes nothing
to the utilization accumulator.  (When source = destination, `dijkstra` instead
returns the empty path, which also contributes nothing to utilization.) -/
theorem dijkstra_unreachable_for_distinct_endpoints (n : Network) (s d : String)
    (hne : s ≠ d)
    (h : absentFrom n s ∨ absentFrom n d ∨ ∀ q, ¬ isPath n.links s d q = true) :
    dijkstra n s d = some none ∧
      ∀ (m : List (Nat × Nat)) (dem : TrafficDemand), dem.source = s →
        dem.destination = d → MainRs.routeDemand n m dem = m := by
  have hnopath : ∀ q, ¬ isPath n.links s d q = true := by
    rcases h with h | h | h
    · exact absent_no_path n s d hne (Or.inl h)
    · exact absent_no_path n s d hne (Or.inr h)
    · exact h
  obtain ⟨r, hr, hrp⟩ := dijkstra_spec n s d
  have hrnone : r = none := by
    cases r with
    | none => rfl
    | some p => exact absurd (hrp p rfl).1 (hnopath p)
  subst hrnone
  refine ⟨hr, ?_⟩
  intro m dem h1 h2
  unfold MainRs.routeDemand
  rw [h1, h2, hr]

/-- C3 (witness for the amended theorem): source "C" and destination "D" are
absent from the one-link network `A → B`. -/
theorem dijkstra_unreachable_for_distinct_endpoints_witness :
    dijkstra NET_AB "C" "D" = some none ∧
    MainRs.routeDemand NET_AB [] { source := "C", destination := "D", demand := 7 } = [] := by
  have h := dijkstra_unreachable_for_distinct_endpoints NET_AB "C" "D"
    (by decide) (Or.inl (by decide))
  exact ⟨h.1, h.2 [] { source := "C", destination := "D", demand := 7 } rfl rfl⟩

/-- C10.  `dijkstra` is total: the embedded loops never exhaust their fuel (the
result is never `none`, covering termination of the main loop and of the
predecessor walk, and in-bounds indexing during reconstruction), and every link
id of a returned path is a valid index into the link vector. -/
theorem dijkstra_terminates_and_in_bounds (n : Network) (s d : String) :
    dijkstra n s d ≠ none ∧
      ∀ p, dijkstra n s d = some (some p) → ∀ i ∈ p, i < n.links.length := by
  obtain ⟨r, hr, hrp⟩ := dijkstra_spec n s d
  refine ⟨by rw [hr]; simp, ?_⟩
  intro p hp i hip
  rw [hr] at hp
  injection hp with h2
  exact isPath_mem_lt_length _ _ _ _ (hrp p h2).1 i hip

/-- C10 (witness): the indices of the path returned on scenario S2 are in
bounds. -/
theorem dijkstra_terminates_and_in_bounds_witness :
    (0 : Nat) < NET_S2.links.length :=
  (dijkstra_terminates_and_in_bounds NET_S2 "A" "D").2 [0, 2] (by decide) 0 (by decide)

/-! C4: utilization conservation for the aggregator of `main.rs`. -/

theorem sumVals_foldl_addUtil (p : List Nat) (m : List (Nat × Nat)) (v : Nat) :
    sumVals (p.foldl (fun acc lid => addUtil acc lid v) m) = sumVals m + p.length * v := by
  induction p generalizing m with
  | nil => simp
  | cons i t ih =>
    simp only [List.foldl_cons, ih, sumVals_addUtil, List.length_cons]
    ring


theorem sumVals_routeDemand (n : Network) (m : List (Nat × Nat)) (dem : TrafficDemand) :
    sumVals (MainRs.routeDemand n m dem) = sumVals m + demandContribution n dem := by
  unfold MainRs.routeDemand demandContribution
  cases h : dijkstra n dem.source dem.destination with
  | none => simp
  | some r =>
    cases r with
    | none => simp
    | some p => simp [sumVals_foldl_addUtil]

theorem sumVals_foldl_routeDemand (n : Network) (ds : List TrafficDemand)
    (m : List (Nat × Nat)) :
    sumVals (ds.foldl (MainRs.routeDemand n) m) =
      sumVals m + (ds.map (demandContribution n)).sum := by
  induction ds generalizing m with
  | nil => simp
  | cons dem t ih =>
    simp only [List.foldl_cons, ih, sumVals_routeDemand, List.map_cons, List.sum_cons]
    omega

/-- C4.  `model_traffic` (main.rs) routes each demand in input order via `dijkstra`
and adds the demand's volume to every link id on the returned path, so the total
utilization over all links equals the sum, over the successfully routed demands,
of path length times volume. -/
theorem model_traffic_utilization_conservation (n : Network) (ds : List TrafficDemand) :
    sumVals (MainRs.model_traffic_util n ds) =
      (ds.map (fun dem =>
        match dijkstra n dem.source dem.destination with
        | some (some p) => p.length * dem.demand
        | _ => 0)).sum := by
  have h := sumVals_foldl_routeDemand n ds []
  simpa [MainRs.model_traffic_util, demandContribution, sumVals] using h

/-! C5: the `network.rs` loader assigns the constant `link_id` 1 to every link. -/

/-- C5 (code bug evaluation).  On a two-row network table, `network.rs`'s
`load_network` gives both links `link_id = 1`: the identifiers are neither the
zero-based positions 0 and 1 claimed by the specification nor unique.
(`main.rs`'s loader assigns `link_id` from `enumerate()`, hence positionally.) -/
theorem networkRs_load_network_constant_link_id :
    NetworkRs.load_network [["A", "B", "10", "1"], ["B", "C", "10", "2"]] =
      some ⟨[{ link_id := 1, start := "A", «end» := "B", capacity := 10, weight := 1 },
             { link_id := 1, start := "B", «end» := "C", capacity := 10, weight := 2 }]⟩ := by
  decide

/-! C6: `main.rs` reads the link fields from columns 1–4 instead of 0–3. -/

/-- C6 (code bug evaluation).  `main.rs`'s `load_network` fails on the
specification's own 4-column row format (indexing `record[4]` panics), and on a
5-column row it takes `start` from column 1 rather than column 0 (similarly
`end`, `capacity`, `weight` from columns 2–4). -/
theorem mainRs_load_network_column_shift :
    MainRs.load_network [["A", "B", "10", "1"]] = none ∧
    MainRs.load_network [["X", "A", "B", "10", "1"]] =
      some ⟨[{ link_id := 0, start := "A", «end» := "B", capacity := 10, weight := 1 }]⟩ := by
  constructor <;> decide

/-! C7: the `network.rs` demand loader silently skips the first row as a header. -/

/-- C7 (code bug evaluation).  On a one-row traffic table, `network.rs`'s
`load_traffic` returns no demands (the row is consumed as a CSV header), while
`main.rs`'s `load_traffic` parses the same row as a demand. -/
theorem networkRs_load_traffic_skips_first_row :
    NetworkRs.load_traffic [["A", "B", "5"]] = some [] ∧
    MainRs.load_traffic [["A", "B", "5"]] =
      some [{ source := "A", destination := "B", demand := 5 }] := by
  constructor <;> decide

/-! C8: structure of the worst-case-failure reports. -/

theorem filterMap_if_eq_filter_map {α β : Type} (p : α → Prop) [DecidablePred p]
    (f : α → β) (l : List α) :
    (l.filterMap (fun a => if p a then some (f a) else none)) =
      (l.filter (fun a => decide (p a))).map f := by
  induction l with
  | nil => rfl
  | cons a t ih =>
    by_cases h : p a <;> simp [List.filterMap_cons, List.filter_cons, h, ih]

/-- C8 (counterexample).  On a one-link network `(A → B)` and one demand
`(A, D)`, the `worst_case_failure` of `main.rs` emits the record
`["0", "A", "D"]`, which does not carry the four fields
`L.start, L.end, D.source, D.destination` the claim demands: the report
disagrees with the contract records. -/
theorem mainRs_wcf_record_missing_endpoints :
    MainRs.worst_case_failure NET_AB [{ source := "A", destination := "D", demand := 5 }] =
      [["0", "A", "D"]] ∧
    wcfContractRecords NET_AB [{ source := "A", destination := "D", demand := 5 }] =
      [["A", "B", "A", "D"]] ∧
    MainRs.worst_case_failure NET_AB [{ source := "A", destination := "D", demand := 5 }] ≠
      wcfContractRecords NET_AB [{ source := "A", destination := "D", demand := 5 }] := by
  refine ⟨by decide, by decide, by decide⟩

theorem mainRs_wcf_inner_length (ds : List TrafficDemand) (l : Link) (i : Nat) :
    (ds.filterMap (fun dem =>
      if wcfMatch l dem then some [toString i, dem.source, dem.destination]
      else none)).length =
      ((ds.filter (fun dem => decide (wcfMatch l dem))).map
        (fun dem => [l.start, l.«end», dem.source, dem.destination])).length := by
  rw [filterMap_if_eq_filter_map]
  simp

theorem mainRs_wcf_length_aux (ds : List TrafficDemand) :
    ∀ (L : List Link) (i : Nat),
      (((enumerate i L).map (fun il =>
        ds.filterMap (fun dem =>
          if wcfMatch il.2 dem then some [toString il.1, dem.source, dem.destination]
          else none))).flatten).length =
      ((L.map (fun l =>
        ((ds.filter (fun dem => decide (wcfMatch l dem))).map
          (fun dem => [l.start, l.«end», dem.source, dem.destination])))).flatten).length := by
  intro L
  induction L with
  | nil => intro i; rfl
  | cons l t ih =>
    intro i
    simp only [enumerate, List.map_cons, List.flatten_cons, List.length_append, ih,
      mainRs_wcf_inner_length]

/-- C8 (amended).  Both implementations emit exactly one record per (link,
demand) pair whose endpoint sets overlap and none otherwise, in input order:
the `network.rs` version produces exactly the contract records (carrying
`L.start, L.end, D.source, D.destination`), while the `main.rs` version
produces reports of the same shape (one record per overlapping pair) whose
records instead carry the link's index, `D.source` and `D.destination`. -/
theorem worst_case_failure_structure (n : Network) (ds : List TrafficDemand) :
    NetworkRs.worst_case_failure n ds = wcfContractRecords n ds ∧
    (MainRs.worst_case_failure n ds).length = (wcfContractRecords n ds).length := by
  constructor
  · unfold NetworkRs.worst_case_failure wcfContractRecords
    congr 1
    apply List.map_congr_left
    intro l _
    exact filterMap_if_eq_filter_map _ _ ds
  · exact mainRs_wcf_length_aux ds n.links 0

/-! C9: emission order of the utilization report.  The data rows are produced by
iterating a `std::collections::HashMap`, whose iteration order is randomized per
process (`RandomState`); a run of the tool therefore fixes some permutation of
the accumulated entries, and two runs need not fix the same one. -/

/-- C9 (counterexample).  Routing the single demand `(A, C, 5)` over the chain
`A → B → C` utilizes two links; both `[(0, 5), (1, 5)]` and `[(1, 5), (0, 5)]`
are permutations of the accumulated utilization map, i.e. orders the `HashMap`
iteration may produce, and they yield different report files — so byte-identical
output across runs is not guaranteed. -/
theorem utilization_report_order_dependent :
    List.Perm [(0, 5), (1, 5)]
      (MainRs.model_traffic_util NET_S1 [{ source := "A", destination := "C", demand := 5 }]) ∧
    List.Perm [(1, 5), (0, 5)]
      (MainRs.model_traffic_util NET_S1 [{ source := "A", destination := "C", demand := 5 }]) ∧
    MainRs.utilizationReport [(0, 5), (1, 5)] ≠ MainRs.utilizationReport [(1, 5), (0, 5)] := by
  refine ⟨by decide, by decide, by decide⟩

/-- C9 (amended).  For a fixed pair of input files the content of the
utilization report is deterministic up to the order of its data rows: any two
emission orders of the accumulated utilization map produce reports that are
permutations of one another and share the header line.  (All other output — the
WCF report and the set of utilization rows — is a pure function of the inputs;
only the `HashMap` iteration order varies between runs.) -/
theorem utilization_report_deterministic_up_to_order (n : Network)
    (ds : List TrafficDemand) (o1 o2 : List (Nat × Nat))
    (h1 : List.Perm o1 (MainRs.model_traffic_util n ds))
    (h2 : List.Perm o2 (MainRs.model_traffic_util n ds)) :
    List.Perm (MainRs.utilizationReport o1) (MainRs.utilizationReport o2) ∧
    (MainRs.utilizationReport o1).head? = (MainRs.utilizationReport o2).head? := by
  refine ⟨List.Perm.cons _ ((h1.trans h2.symm).map _), rfl⟩

/-- C9 (witness for the amended theorem), at the counterexample's input. -/
theorem utilization_report_deterministic_up_to_order_witness :
    List.Perm (MainRs.utilizationReport [(0, 5), (1, 5)])
      (MainRs.utilizationReport [(1, 5), (0, 5)]) ∧
    (MainRs.utilizationReport [(0, 5), (1, 5)]).head? =
      (MainRs.utilizationReport [(1, 5), (0, 5)]).head? :=
  utilization_report_deterministic_up_to_order NET_S1
    [{ source := "A", destination := "C", demand := 5 }]
    [(0, 5), (1, 5)] [(1, 5), (0, 5)] (by decide) (by decide)

end NetworkModeller
